import Mathlib

/-!
Verification of the ActionBox policy-engine core: the rule matcher
(`path-matcher.ts`), parameter extractor (`param-extractor.ts`), global
policy builder (`policy.ts`) and tool-call evaluator (`matcher.ts`),
shallowly embedded in Lean.  JavaScript `Map`s are modelled as
insertion-ordered association lists, JS parameter bags as association
lists of a JSON-like value type, and the ambient effects used to stamp
violations (`randomUUID`, `Date`) as an explicit freshness source.
-/

namespace ABox

/-- JS-like parameter values (`Record<string, unknown>` entries).
JS numbers are modelled as integers; the evaluator only ever inspects
strings, so the numeric carrier is irrelevant to the embedded code. -/
inductive JValue where
  | str (s : String)
  | num (n : Int)
  | bool (b : Bool)
  | null
  | arr (elems : List JValue)
  | obj (fields : List (String × JValue))

/-- A JS object / `Map`: insertion-ordered association list. -/
abbrev Params := List (String × JValue)

/-- First-match key lookup (JS object property access / `Map.get`). -/
def getParam (params : Params) (k : String) : Option JValue :=
  match params with
  | [] => none
  | (k0, v0) :: rest => if k0 = k then some v0 else getParam rest k

/-- Remove every binding of a key (used to state "this entry is skipped"). -/
def removeParam (params : Params) (k : String) : Params :=
  params.filter (fun e => decide (e.1 ≠ k))

theorem getParam_removeParam_self (params : Params) (k : String) :
    getParam (removeParam params k) k = none := by
  induction params with
  | nil => rfl
  | cons e rest ih =>
    by_cases h : e.1 = k
    · simpa [removeParam, getParam, h] using ih
    · simpa [removeParam, getParam, h] using ih

theorem getParam_removeParam_ne (params : Params) (k k2 : String) (h : k2 ≠ k) :
    getParam (removeParam params k) k2 = getParam params k2 := by
  induction params with
  | nil => rfl
  | cons e rest ih =>
    by_cases hk : e.1 = k
    · have hne : ¬ k = k2 := fun hc => h hc.symm
      simpa [removeParam, getParam, List.filter_cons, hk, hne] using ih
    · by_cases hk2 : e.1 = k2
      · simp [removeParam, getParam, List.filter_cons, hk, hk2, h]
      · simpa [removeParam, getParam, List.filter_cons, hk, hk2] using ih

/-- Insertion-ordered map update (`Map.set`): replace the value at an
existing key in place, otherwise append the new binding at the end. -/
def msetKV {α : Type} (m : List (String × α)) (k : String) (v : α) :
    List (String × α) :=
  match m with
  | [] => [(k, v)]
  | (k0, v0) :: rest =>
    if k0 = k then (k0, v) :: rest else (k0, v0) :: msetKV rest k v

/-- First-match lookup in an association list (`Map.get`). -/
def mget {α : Type} (m : List (String × α)) (k : String) : Option α :=
  match m with
  | [] => none
  | (k0, v0) :: rest => if k0 = k then some v0 else mget rest k

theorem mget_msetKV {α : Type} (m : List (String × α)) (k k2 : String) (v : α) :
    mget (msetKV m k v) k2 = if k = k2 then some v else mget m k2 := by
  induction m with
  | nil =>
    by_cases h : k = k2 <;> simp [msetKV, mget, h]
  | cons e rest ih =>
    by_cases h0 : e.1 = k
    · by_cases h2 : k = k2
      · simp [msetKV, mget, h0, h2]
      · have : e.1 ≠ k2 := by rw [h0]; exact h2
        simp [msetKV, mget, h0, h2, this]
    · by_cases h2 : e.1 = k2
      · have hkk : ¬ k = k2 := by
          intro hc
          exact h0 (by rw [h2, ← hc])
        have hkk2 : ¬ k2 = k := fun hc => hkk hc.symm
        simp [msetKV, mget, h0, h2, hkk, hkk2]
      · simpa [msetKV, mget, h0, h2] using ih

theorem mget_filter_key {α : Type} (m : List (String × α)) (p : String → Bool)
    (k : String) :
    mget (m.filter (fun e => p e.1)) k = if p k then mget m k else none := by
  induction m with
  | nil => by_cases h : p k <;> simp [mget, h]
  | cons e rest ih =>
    by_cases he : e.1 = k
    · by_cases hp : p k
      · simp [List.filter, he, hp, mget]
      · simpa [List.filter, he, hp, mget] using ih
    · by_cases hpe : p e.1 <;> simpa [List.filter, he, hpe, mget] using ih

/-- JS `Set.add` on an insertion-ordered list: append if not present. -/
def saddStr (s : List String) (x : String) : List String :=
  if x ∈ s then s else s ++ [x]

theorem mem_saddStr (s : List String) (x y : String) :
    y ∈ saddStr s x ↔ y ∈ s ∨ y = x := by
  by_cases h : x ∈ s
  · constructor
    · intro hy
      exact Or.inl (by simpa [saddStr, h] using hy)
    · intro hy
      rcases hy with hy | hy
      · simpa [saddStr, h] using hy
      · simp [saddStr, h, hy]
  · simp [saddStr, h]

/-- JS `[...new Set(l)]`: deduplicate keeping first occurrences in order. -/
def dedupFirst (l : List String) : List String :=
  l.foldl (fun acc x => if x ∈ acc then acc else acc ++ [x]) []

theorem foldl_dedup_mem (l : List String) (acc : List String) (y : String) :
    y ∈ l.foldl (fun acc x => if x ∈ acc then acc else acc ++ [x]) acc ↔
      y ∈ acc ∨ y ∈ l := by
  induction l generalizing acc with
  | nil => simp
  | cons x rest ih =>
    by_cases hx : x ∈ acc
    · rw [List.foldl_cons]
      simp only [hx, if_pos]
      rw [ih]
      constructor
      · rintro (h | h)
        · exact Or.inl h
        · exact Or.inr (List.mem_cons_of_mem _ h)
      · rintro (h | h)
        · exact Or.inl h
        · rcases List.mem_cons.mp h with h | h
          · exact Or.inl (h ▸ hx)
          · exact Or.inr h
    · rw [List.foldl_cons]
      simp only [hx, if_neg, not_false_iff]
      rw [ih]
      simp only [List.mem_append, List.mem_singleton, List.mem_cons]
      tauto

theorem mem_dedupFirst (l : List String) (y : String) :
    y ∈ dedupFirst l ↔ y ∈ l := by
  unfold dedupFirst
  rw [foldl_dedup_mem]
  simp

theorem foldl_dedup_nodup (l : List String) (acc : List String)
    (h : acc.Nodup) :
    (l.foldl (fun acc x => if x ∈ acc then acc else acc ++ [x]) acc).Nodup := by
  induction l generalizing acc with
  | nil => simpa using h
  | cons x rest ih =>
    by_cases hx : x ∈ acc
    · rw [List.foldl_cons]
      simp only [hx, if_pos]
      exact ih acc h
    · rw [List.foldl_cons]
      simp only [hx, if_neg, not_false_iff]
      refine ih _ ?_
      simpa [List.nodup_append, h] using hx

theorem nodup_dedupFirst (l : List String) : (dedupFirst l).Nodup :=
  foldl_dedup_nodup l [] List.nodup_nil

/-- `types.ts` — one `(name, reason)` entry of `allowedTools`/`deniedTools`.
The optional `constraints` bag of `AllowedTool` is never read by the core. -/
structure ToolRule where
  name : String
  reason : String
deriving DecidableEq, Repr

/-- `types.ts` — glob rule sets for filesystem access. -/
structure FilesystemRules where
  readable : List String
  writable : List String
  denied : List String
deriving DecidableEq, Repr

/-- `types.ts` — hostname rule sets for network access. -/
structure NetworkRules where
  allowedHosts : List String
  deniedHosts : List String
deriving DecidableEq, Repr

/-- `types.ts` — an ActionBox contract.  `version`, `behavior` and `drift`
are never read by the policy builder or the evaluator and are omitted. -/
structure ActionBox where
  skillId : String
  skillName : String
  allowedTools : List ToolRule
  deniedTools : List ToolRule
  allowedCapabilities : List String
  deniedCapabilities : List String
  filesystem : FilesystemRules
  network : NetworkRules
deriving DecidableEq, Repr

/-- `policy.ts` — the value stored in `globalDeniedTools`. -/
structure DeniedToolInfo where
  reason : String
  denyingSkills : List String
deriving DecidableEq, Repr

/-- `policy.ts` — the merged read-only decision structure.  The two
capability fields are modelled from the spec (§3, §4.3 step 4): the final
`policy.ts` revision carrying them is absent from the sources, with only
its caller `enforcer.ts` and tests remaining. -/
structure GlobalPolicy where
  globalDeniedTools : List (String × DeniedToolInfo)
  toolIndex : List (String × List String)
  globalDeniedPaths : List String
  globalDeniedHosts : List String
  allAllowedCapabilities : List String
  allDeniedCapabilities : List String
  boxes : List (String × ActionBox)
deriving DecidableEq, Repr

/-- List-based string primitives (kept kernel-computable). -/
def strStartsWith (s pre : String) : Bool :=
  pre.data.isPrefixOf s.data

def strEndsWith (s suf : String) : Bool :=
  suf.data.isSuffixOf s.data

/-- `s.slice(n)`: drop the first `n` characters. -/
def strDrop (s : String) (n : Nat) : String :=
  String.mk (s.data.drop n)

/-- Substring scan used for `String.includes`-style checks. -/
def listInfix (sub : List Char) : List Char → Bool
  | [] => sub.isEmpty
  | c :: rest => sub.isPrefixOf (c :: rest) || listInfix sub rest

/-- JS `s.includes(sub)`. -/
def strContains (s sub : String) : Bool :=
  listInfix sub.data s.data

theorem listInfix_iff (sub l : List Char) :
    listInfix sub l = true ↔ sub <:+: l := by
  induction l with
  | nil => simp [listInfix, List.isEmpty_iff]
  | cons c rest ih =>
    simp [listInfix, List.infix_cons_iff, ih, List.isPrefixOf_iff_prefix]

theorem strContains_append_right (a b : String) :
    strContains (a ++ b) b = true := by
  rw [strContains, listInfix_iff, String.data_append]
  exact (List.suffix_append a.data b.data).isInfix

/-- Segment-level glob match with fuel (`*` any run, `?` one char, else
literal); fuel keeps the definition structurally recursive so that the
kernel can evaluate it. -/
def segMatchF : Nat → List Char → List Char → Bool
  | 0, _, _ => false
  | _ + 1, [], [] => true
  | fuel + 1, p :: ps, [] =>
    if p = '*' then segMatchF fuel ps [] else false
  | _ + 1, [], _ :: _ => false
  | fuel + 1, p :: ps, c :: cs =>
    if p = '*' then segMatchF fuel ps (c :: cs) || segMatchF fuel (p :: ps) cs
    else if p = '?' then segMatchF fuel ps cs
    else p = c && segMatchF fuel ps cs

def segMatch (p c : List Char) : Bool :=
  segMatchF (p.length + c.length + 1) p c

/-- Modelled from the spec: `minimatch(path, pattern, { dot: true })`
(an external library, not part of this repository).  Glob semantics per
§4.1: patterns and paths are split on `/`; a `**` segment matches any
number of path segments; within a segment `*` and `?` are wildcards;
dotfiles are matched by default (no implicit dot-exclusion). -/
def globSegsF : Nat → List (List Char) → List (List Char) → Bool
  | 0, _, _ => false
  | _ + 1, [], ss => ss.isEmpty
  | fuel + 1, p :: pr, ss =>
    if p = ['*', '*'] then
      globSegsF fuel pr ss ||
        (match ss with
         | [] => false
         | _ :: sr => globSegsF fuel (p :: pr) sr)
    else
      match ss with
      | [] => false
      | s :: sr => segMatch p s && globSegsF fuel pr sr

def splitSlash (s : String) : List (List Char) :=
  (s.data.splitOn '/')

def minimatchDot (path pattern : String) : Bool :=
  let ps := splitSlash pattern
  let ss := splitSlash path
  globSegsF (ps.length + ss.length + 1) ps ss

/-- `path-matcher.ts` — check if a path matches any of the glob patterns. -/
def pathMatchesAny (filePath : String) (patterns : List String) : Bool :=
  patterns.any (fun pattern => minimatchDot filePath pattern)

inductive FileOp where
  | read
  | write
deriving DecidableEq, Repr

/-- `path-matcher.ts` — filesystem access check: denied patterns first
(independent of operation), then the operation's allow-list when present. -/
def checkFilesystemAccess (filePath : String) (operation : FileOp)
    (rules : FilesystemRules) : Option String :=
  if pathMatchesAny filePath rules.denied then
    some ("Path \"" ++ filePath ++ "\" matches a denied filesystem pattern")
  else if operation = FileOp.read ∧ rules.readable ≠ [] ∧
      ¬ pathMatchesAny filePath rules.readable then
    some ("Read access to \"" ++ filePath ++
      "\" is not covered by any readable pattern")
  else if operation = FileOp.write ∧ rules.writable ≠ [] ∧
      ¬ pathMatchesAny filePath rules.writable then
    some ("Write access to \"" ++ filePath ++
      "\" is not covered by any writable pattern")
  else
    none

/-- `path-matcher.ts` — hostname pattern match: `*` matches everything,
`*.suffix` matches hosts ending in `.suffix`, anything else is exact. -/
def hostMatches (host pattern : String) : Bool :=
  if pattern = "*" then true
  else if strStartsWith pattern "*." then strEndsWith host (strDrop pattern 1)
  else host = pattern

/-- `path-matcher.ts` — network access check: deny list first (first
matching pattern is reported), then the allow list when non-empty. -/
def checkNetworkAccess (host : String) (rules : NetworkRules) : Option String :=
  match rules.deniedHosts.find? (fun pattern => hostMatches host pattern) with
  | some pattern =>
    some ("Host \"" ++ host ++ "\" matches denied pattern \"" ++ pattern ++ "\"")
  | none =>
    if rules.allowedHosts ≠ [] ∧
        ¬ rules.allowedHosts.any (fun pattern => hostMatches host pattern) then
      some ("Host \"" ++ host ++ "\" is not in the allowed hosts list")
    else
      none

/-! `param-extractor.ts` — heuristic extraction of candidate paths and
hosts from an untyped parameter bag. -/

def PATH_KEYS : List String :=
  ["path", "file_path", "filePath", "file", "filename", "directory", "dir"]

def URL_KEYS : List String := ["url", "uri", "endpoint", "href"]

def HOST_KEYS : List String := ["host", "hostname", "server", "domain"]

def WRITE_TOOL_PATTERNS : List String :=
  ["write", "create", "edit", "patch", "delete", "move", "copy", "mkdir",
   "rm", "save"]

/-- JS truthiness on parameter values (numbers modelled as integers). -/
def truthy : JValue → Bool
  | JValue.str s => decide (s.length > 0)
  | JValue.num n => decide (n ≠ 0)
  | JValue.bool b => b
  | JValue.null => false
  | JValue.arr _ => true
  | JValue.obj _ => true

def isQuoteChar (c : Char) : Bool :=
  c = '"' || c = Char.ofNat 39

/-- The global regex scan over a shell command string:
`(?:["..])(\/[^"..]+)(?:["..])` with the two quote delimiters stripped
from each match — a quote, a slash, one or more non-quote characters,
then a closing quote; scanning resumes after each match's closing quote
and otherwise advances one character.  Fuel keeps it structural. -/
def extractQuotedPathsF : Nat → List Char → List String
  | 0, _ => []
  | _ + 1, [] => []
  | fuel + 1, c :: rest =>
    if isQuoteChar c then
      match rest with
      | '/' :: more =>
        let body := more.takeWhile (fun ch => !(isQuoteChar ch))
        let after := more.drop body.length
        if body.isEmpty then extractQuotedPathsF fuel rest
        else
          match after with
          | [] => extractQuotedPathsF fuel rest
          | _ :: tail =>
            String.mk ('/' :: body) :: extractQuotedPathsF fuel tail
      | _ => extractQuotedPathsF fuel rest
    else
      extractQuotedPathsF fuel rest

def extractQuotedPaths (cmd : String) : List String :=
  extractQuotedPathsF cmd.data.length cmd.data

/-- Modelled from the spec: WHATWG `new URL(value)` hostname extraction
(an external runtime facility).  "Parse as a URL and take its hostname,
silently skipping values that do not parse": a non-empty scheme of
URL-scheme characters followed by `://` is required, and the hostname is
the authority up to the first `/`, `:`, `?` or `#`; anything else does
not parse and yields `none`. -/
def isSchemeChar (c : Char) : Bool :=
  c.isAlpha || c.isDigit || c = '+' || c = '-' || c = '.'

def parseUrlHostname (s : String) : Option String :=
  let scheme := s.data.takeWhile isSchemeChar
  match scheme, s.data.drop scheme.length with
  | _ :: _, ':' :: '/' :: '/' :: tail =>
    some (String.mk (tail.takeWhile
      (fun c => !(c = '/' || c = ':' || c = '?' || c = '#'))))
  | _, _ => none

/-- JS `toLowerCase()`, character-wise (kernel-computable). -/
def strToLower (s : String) : String :=
  String.mk (s.data.map Char.toLower)

/-- Contribution of one `PATH_KEYS` entry: string values of positive
length only; anything else is skipped. -/
def pathFromKey (params : Params) (key : String) : Option String :=
  match getParam params key with
  | some (JValue.str s) => if s.length > 0 then some s else none
  | _ => none

/-- `params.command ?? params.cmd` (nullish coalescing). -/
def commandParam (params : Params) : Option JValue :=
  match getParam params "command" with
  | none => getParam params "cmd"
  | some JValue.null => getParam params "cmd"
  | some v => some v

/-- `param-extractor.ts` — extract filesystem paths from tool params:
known path-like keys, quoted absolute paths in `bash`/`shell` command
strings, and the `path` accompanying a truthy `pattern`; deduplicated
keeping first occurrences. -/
def extractPaths (toolName : String) (params : Params) : List String :=
  let fromKeys := PATH_KEYS.filterMap (fun key => pathFromKey params key)
  let fromBash :=
    if strContains (strToLower toolName) "bash" ||
        strContains (strToLower toolName) "shell" then
      match commandParam params with
      | some (JValue.str cmd) => extractQuotedPaths cmd
      | _ => []
    else []
  let fromGlob :=
    match getParam params "pattern", getParam params "path" with
    | some pv, some (JValue.str p) => if truthy pv then [p] else []
    | _, _ => []
  dedupFirst (fromKeys ++ fromBash ++ fromGlob)

/-- Contribution of one `URL_KEYS` entry: parse string values as URLs and
keep the hostname, silently skipping values that do not parse. -/
def hostFromUrlKey (params : Params) (key : String) : Option String :=
  match getParam params key with
  | some (JValue.str s) =>
    if s.length > 0 then parseUrlHostname s else none
  | _ => none

/-- Contribution of one `HOST_KEYS` entry: the raw string value. -/
def hostFromHostKey (params : Params) (key : String) : Option String :=
  match getParam params key with
  | some (JValue.str s) => if s.length > 0 then some s else none
  | _ => none

/-- `param-extractor.ts` — extract network hosts from tool params. -/
def extractHosts (params : Params) : List String :=
  dedupFirst (URL_KEYS.filterMap (fun key => hostFromUrlKey params key) ++
    HOST_KEYS.filterMap (fun key => hostFromHostKey params key))

/-- `param-extractor.ts` — classify a tool name as a write when it
contains any of the write-vocabulary substrings, case-insensitively. -/
def inferFileOperation (toolName : String) : FileOp :=
  if WRITE_TOOL_PATTERNS.any (fun w => strContains (strToLower toolName) w) then
    FileOp.write
  else
    FileOp.read

/-! `policy.ts` — the global policy builder. -/

/-- The accumulators mutated by `buildGlobalPolicy`'s contract loop. -/
structure PolicyBuild where
  boxMap : List (String × ActionBox)
  toolIndex : List (String × List String)
  allDeniedTools : List (String × DeniedToolInfo)
  allAllowedToolNames : List String
  deniedPaths : List String
  deniedHosts : List String

/-- `policy.ts` — one `deniedTools` entry: append the denying skill to an
existing entry, otherwise create the entry with this rule's reason. -/
def addDeniedTool (skillId : String) (m : List (String × DeniedToolInfo))
    (t : ToolRule) : List (String × DeniedToolInfo) :=
  match mget m t.name with
  | some existing =>
    msetKV m t.name
      { existing with denyingSkills := existing.denyingSkills ++ [skillId] }
  | none => msetKV m t.name { reason := t.reason, denyingSkills := [skillId] }

/-- `policy.ts` — one `allowedTools` entry into the tool index:
`toolIndex.set(name, (toolIndex.get(name) ?? []).concat(skillId))`. -/
def addAllowedToolIndex (skillId : String) (ti : List (String × List String))
    (t : ToolRule) : List (String × List String) :=
  msetKV ti t.name ((mget ti t.name).getD [] ++ [skillId])

/-- `policy.ts` — one iteration of the contract loop.  The source's single
pass over `allowedTools` feeds two independent accumulators (the
"ever allowed" name set and the tool index), modelled as two folds over
the same list. -/
def processBox (st : PolicyBuild) (box : ActionBox) : PolicyBuild where
  boxMap := msetKV st.boxMap box.skillId box
  toolIndex :=
    box.allowedTools.foldl (addAllowedToolIndex box.skillId) st.toolIndex
  allDeniedTools :=
    box.deniedTools.foldl (addDeniedTool box.skillId) st.allDeniedTools
  allAllowedToolNames :=
    box.allowedTools.foldl (fun s t => saddStr s t.name) st.allAllowedToolNames
  deniedPaths := box.filesystem.denied.foldl saddStr st.deniedPaths
  deniedHosts := box.network.deniedHosts.foldl saddStr st.deniedHosts

def emptyBuild : PolicyBuild := ⟨[], [], [], [], [], []⟩

/-- `policy.ts` — `buildGlobalPolicy`: fold the contract list, then keep
as globally denied only the tools never allowed by any contract.  The
two capability unions are modelled from the spec (§4.3 step 4). -/
def buildGlobalPolicy (boxes : List ActionBox) : GlobalPolicy :=
  let st := boxes.foldl processBox emptyBuild
  { globalDeniedTools :=
      st.allDeniedTools.filter
        (fun e => !(decide (e.1 ∈ st.allAllowedToolNames)))
    toolIndex := st.toolIndex
    globalDeniedPaths := st.deniedPaths
    globalDeniedHosts := st.deniedHosts
    allAllowedCapabilities := boxes.flatMap (fun b => b.allowedCapabilities)
    allDeniedCapabilities := boxes.flatMap (fun b => b.deniedCapabilities)
    boxes := st.boxMap }

/-- `policy.ts` — `attributeToolToSkills`. -/
def attributeToolToSkills (toolName : String) (policy : GlobalPolicy) :
    List String :=
  (mget policy.toolIndex toolName).getD []

/-! Characterizations of the builder's folds. -/

/-- The `deniedTools` entries of one contract that name a given tool. -/
def denialsIn (tools : List ToolRule) (T : String) : List ToolRule :=
  tools.filter (fun t => decide (t.name = T))

/-- All denials of a tool across a contract list, in input order. -/
def allDenials (contracts : List ActionBox) (T : String) : List ToolRule :=
  contracts.flatMap (fun b => denialsIn b.deniedTools T)

/-- Skill IDs of the contracts denying a tool, in input order (one
occurrence per matching `deniedTools` entry). -/
def deniersOf (contracts : List ActionBox) (T : String) : List String :=
  contracts.flatMap (fun b => (denialsIn b.deniedTools T).map (fun _ => b.skillId))

def firstDeniedRule (contracts : List ActionBox) (T : String) :
    Option ToolRule :=
  (allDenials contracts T).head?

/-- Skill IDs of the contracts allowing a tool, in input order (one
occurrence per matching `allowedTools` entry). -/
def claimersOf (contracts : List ActionBox) (T : String) : List String :=
  contracts.flatMap
    (fun b => (b.allowedTools.filter (fun t => decide (t.name = T))).map
      (fun _ => b.skillId))

def extendDenied (sk : String) (tools : List ToolRule) (T : String) :
    Option DeniedToolInfo → Option DeniedToolInfo
  | some e =>
    some ⟨e.reason, e.denyingSkills ++ (denialsIn tools T).map (fun _ => sk)⟩
  | none =>
    (denialsIn tools T).head?.map
      (fun t => ⟨t.reason, (denialsIn tools T).map (fun _ => sk)⟩)

theorem mget_foldl_addDeniedTool (sk : String) (tools : List ToolRule)
    (m : List (String × DeniedToolInfo)) (T : String) :
    mget (tools.foldl (addDeniedTool sk) m) T =
      extendDenied sk tools T (mget m T) := by
  induction tools generalizing m with
  | nil =>
    cases h : mget m T with
    | none => simp [extendDenied, h, denialsIn]
    | some e => simp [extendDenied, h, denialsIn]
  | cons t ts ih =>
    rw [List.foldl_cons, ih]
    by_cases hname : t.name = T
    · subst hname
      cases h : mget m t.name with
      | some e =>
        simp [addDeniedTool, h, mget_msetKV, extendDenied, denialsIn,
          List.filter_cons]
      | none =>
        simp [addDeniedTool, h, mget_msetKV, extendDenied, denialsIn,
          List.filter_cons]
    · have hstep : mget (addDeniedTool sk m t) T = mget m T := by
        unfold addDeniedTool
        cases mget m t.name <;> simp [mget_msetKV, hname]
      rw [hstep]
      have : denialsIn (t :: ts) T = denialsIn ts T := by
        simp [denialsIn, List.filter_cons, hname]
      cases mget m T <;> simp [extendDenied, this]

def extendIndex (sk : String) (tools : List ToolRule) (T : String) :
    Option (List String) → Option (List String)
  | some l =>
    some (l ++ (tools.filter (fun t => decide (t.name = T))).map (fun _ => sk))
  | none =>
    if (tools.filter (fun t => decide (t.name = T))) = [] then none
    else some ((tools.filter (fun t => decide (t.name = T))).map (fun _ => sk))

theorem mget_foldl_addAllowedToolIndex (sk : String) (tools : List ToolRule)
    (ti : List (String × List String)) (T : String) :
    mget (tools.foldl (addAllowedToolIndex sk) ti) T =
      extendIndex sk tools T (mget ti T) := by
  induction tools generalizing ti with
  | nil =>
    cases h : mget ti T with
    | none => simp [extendIndex, h]
    | some l => simp [extendIndex, h]
  | cons t ts ih =>
    rw [List.foldl_cons, ih]
    by_cases hname : t.name = T
    · subst hname
      cases h : mget ti t.name with
      | some l =>
        simp [addAllowedToolIndex, h, mget_msetKV, extendIndex,
          List.filter_cons]
      | none =>
        simp [addAllowedToolIndex, h, mget_msetKV, extendIndex,
          List.filter_cons]
    · have hstep : mget (addAllowedToolIndex sk ti t) T = mget ti T := by
        unfold addAllowedToolIndex
        simp [mget_msetKV, hname]
      rw [hstep]
      have : (t :: ts).filter (fun t => decide (t.name = T)) =
          ts.filter (fun t => decide (t.name = T)) := by
        simp [List.filter_cons, hname]
      cases mget ti T <;> simp [extendIndex, this]

theorem mem_foldl_saddStr_names (tools : List ToolRule) (s : List String)
    (T : String) :
    T ∈ tools.foldl (fun s t => saddStr s t.name) s ↔
      T ∈ s ∨ ∃ t ∈ tools, t.name = T := by
  induction tools generalizing s with
  | nil => simp
  | cons t ts ih =>
    rw [List.foldl_cons, ih]
    rw [mem_saddStr]
    constructor
    · rintro (⟨h | h⟩ | ⟨t2, ht2, h⟩)
      · exact Or.inl h
      · exact Or.inr ⟨t, List.mem_cons_self _ _, h.symm⟩
      · exact Or.inr ⟨t2, List.mem_cons_of_mem _ ht2, h⟩
    · rintro (h | ⟨t2, ht2, h⟩)
      · exact Or.inl (Or.inl h)
      · rcases List.mem_cons.mp ht2 with rfl | ht2
        · exact Or.inl (Or.inr h.symm)
        · exact Or.inr ⟨t2, ht2, h⟩

def extendDeniedBoxes (boxes : List ActionBox) (T : String) :
    Option DeniedToolInfo → Option DeniedToolInfo
  | some e => some ⟨e.reason, e.denyingSkills ++ deniersOf boxes T⟩
  | none =>
    (firstDeniedRule boxes T).map (fun t => ⟨t.reason, deniersOf boxes T⟩)

theorem mget_allDeniedTools_foldl (boxes : List ActionBox) (st : PolicyBuild)
    (T : String) :
    mget ((boxes.foldl processBox st).allDeniedTools) T =
      extendDeniedBoxes boxes T (mget st.allDeniedTools T) := by
  induction boxes generalizing st with
  | nil =>
    cases h : mget st.allDeniedTools T <;>
      simp [extendDeniedBoxes, h, deniersOf, firstDeniedRule, allDenials]
  | cons b bs ih =>
    rw [List.foldl_cons, ih]
    have hstep : mget ((processBox st b).allDeniedTools) T =
        extendDenied b.skillId b.deniedTools T (mget st.allDeniedTools T) :=
      mget_foldl_addDeniedTool _ _ _ _
    rw [hstep]
    cases h : mget st.allDeniedTools T with
    | some e =>
      simp [extendDenied, extendDeniedBoxes, deniersOf, List.flatMap_cons]
    | none =>
      cases hd : denialsIn b.deniedTools T with
      | nil =>
        simp [extendDenied, extendDeniedBoxes, hd, deniersOf, firstDeniedRule,
          allDenials, List.flatMap_cons]
      | cons t rest =>
        simp [extendDenied, extendDeniedBoxes, hd, deniersOf, firstDeniedRule,
          allDenials, List.flatMap_cons, List.replicate_succ]

def extendIndexBoxes (boxes : List ActionBox) (T : String) :
    Option (List String) → Option (List String)
  | some l => some (l ++ claimersOf boxes T)
  | none =>
    if claimersOf boxes T = [] then none else some (claimersOf boxes T)

theorem mget_toolIndex_foldl (boxes : List ActionBox) (st : PolicyBuild)
    (T : String) :
    mget ((boxes.foldl processBox st).toolIndex) T =
      extendIndexBoxes boxes T (mget st.toolIndex T) := by
  induction boxes generalizing st with
  | nil =>
    cases h : mget st.toolIndex T <;>
      simp [extendIndexBoxes, h, claimersOf]
  | cons b bs ih =>
    rw [List.foldl_cons, ih]
    have hstep : mget ((processBox st b).toolIndex) T =
        extendIndex b.skillId b.allowedTools T (mget st.toolIndex T) :=
      mget_foldl_addAllowedToolIndex _ _ _ _
    rw [hstep]
    cases h : mget st.toolIndex T with
    | some l =>
      simp [extendIndex, extendIndexBoxes, claimersOf, List.flatMap_cons]
    | none =>
      cases hf : b.allowedTools.filter (fun t => decide (t.name = T)) with
      | nil =>
        simp [extendIndex, extendIndexBoxes, hf, claimersOf,
          List.flatMap_cons]
      | cons t rest =>
        simp [extendIndex, extendIndexBoxes, hf, claimersOf,
          List.flatMap_cons, List.replicate_succ]

theorem mem_allAllowed_foldl (boxes : List ActionBox) (st : PolicyBuild)
    (T : String) :
    T ∈ (boxes.foldl processBox st).allAllowedToolNames ↔
      T ∈ st.allAllowedToolNames ∨
        ∃ b ∈ boxes, ∃ t ∈ b.allowedTools, t.name = T := by
  induction boxes generalizing st with
  | nil => simp
  | cons b bs ih =>
    rw [List.foldl_cons, ih]
    have hstep : (processBox st b).allAllowedToolNames =
        b.allowedTools.foldl (fun s t => saddStr s t.name)
          st.allAllowedToolNames := rfl
    rw [hstep, mem_foldl_saddStr_names]
    constructor
    · rintro (⟨h | ⟨t, ht, hn⟩⟩ | ⟨b2, hb2, t, ht, hn⟩)
      · exact Or.inl h
      · exact Or.inr ⟨b, List.mem_cons_self _ _, t, ht, hn⟩
      · exact Or.inr ⟨b2, List.mem_cons_of_mem _ hb2, t, ht, hn⟩
    · rintro (h | ⟨b2, hb2, t, ht, hn⟩)
      · exact Or.inl (Or.inl h)
      · rcases List.mem_cons.mp hb2 with rfl | hb2
        · exact Or.inl (Or.inr ⟨t, ht, hn⟩)
        · exact Or.inr ⟨b2, hb2, t, ht, hn⟩

/-- A tool name is in the "ever allowed" set of a build exactly when some
contract's `allowedTools` lists it. -/
theorem mem_allAllowed_build (contracts : List ActionBox) (T : String) :
    T ∈ (contracts.foldl processBox emptyBuild).allAllowedToolNames ↔
      ∃ b ∈ contracts, ∃ t ∈ b.allowedTools, t.name = T := by
  rw [mem_allAllowed_foldl]
  simp [emptyBuild]

theorem mget_filter_notmem {α : Type} (m : List (String × α))
    (s : List String) (k : String) :
    mget (m.filter (fun e => !(decide (e.1 ∈ s)))) k =
      if k ∈ s then none else mget m k := by
  induction m with
  | nil => by_cases h : k ∈ s <;> simp [mget, h]
  | cons e rest ih =>
    by_cases he : e.1 = k
    · by_cases hk : k ∈ s
      · have : e.1 ∈ s := he ▸ hk
        simpa [List.filter_cons, this, he, mget, hk] using ih
      · have : ¬ e.1 ∈ s := fun hc => hk (he ▸ hc)
        simp [List.filter_cons, this, he, mget, hk]
    · by_cases hes : e.1 ∈ s
      · simpa [List.filter_cons, hes, he, mget] using ih
      · simpa [List.filter_cons, hes, he, mget] using ih

/-- Characterization of `globalDeniedTools`: nothing ever allowed, and
otherwise the first denial's reason together with every denier. -/
theorem mget_globalDeniedTools_build (contracts : List ActionBox)
    (T : String) :
    mget (buildGlobalPolicy contracts).globalDeniedTools T =
      if ∃ b ∈ contracts, ∃ t ∈ b.allowedTools, t.name = T then none
      else
        (firstDeniedRule contracts T).map
          (fun t => ⟨t.reason, deniersOf contracts T⟩) := by
  have hproj : (buildGlobalPolicy contracts).globalDeniedTools =
      (contracts.foldl processBox emptyBuild).allDeniedTools.filter
        (fun e =>
          !(decide
            (e.1 ∈ (contracts.foldl processBox emptyBuild).allAllowedToolNames))) :=
    rfl
  rw [hproj, mget_filter_notmem]
  by_cases hall :
      T ∈ (contracts.foldl processBox emptyBuild).allAllowedToolNames
  · have hex : ∃ b ∈ contracts, ∃ t ∈ b.allowedTools, t.name = T :=
      (mem_allAllowed_build contracts T).mp hall
    simp [hall, hex]
  · have hex : ¬ ∃ b ∈ contracts, ∃ t ∈ b.allowedTools, t.name = T :=
      fun h => hall ((mem_allAllowed_build contracts T).mpr h)
    have hchar := mget_allDeniedTools_foldl contracts emptyBuild T
    have hnone : mget emptyBuild.allDeniedTools T = none := rfl
    rw [hnone] at hchar
    simp [hall, hex, hchar, extendDeniedBoxes]

theorem mget_toolIndex_build (contracts : List ActionBox) (T : String) :
    mget (buildGlobalPolicy contracts).toolIndex T =
      if claimersOf contracts T = [] then none
      else some (claimersOf contracts T) := by
  have hproj : (buildGlobalPolicy contracts).toolIndex =
      (contracts.foldl processBox emptyBuild).toolIndex := rfl
  rw [hproj, mget_toolIndex_foldl]
  have hnone : mget emptyBuild.toolIndex T = none := rfl
  rw [hnone]
  simp [extendIndexBoxes]

theorem attributeToolToSkills_build (contracts : List ActionBox)
    (T : String) :
    attributeToolToSkills T (buildGlobalPolicy contracts) =
      claimersOf contracts T := by
  unfold attributeToolToSkills
  rw [mget_toolIndex_build]
  by_cases h : claimersOf contracts T = [] <;> simp [h]

theorem claimersOf_eq_nil_iff (contracts : List ActionBox) (T : String) :
    claimersOf contracts T = [] ↔
      ∀ b ∈ contracts, ∀ t ∈ b.allowedTools, t.name ≠ T := by
  simp [claimersOf, List.flatMap_eq_nil_iff, List.map_eq_nil_iff,
    List.filter_eq_nil_iff]

theorem firstDeniedRule_isSome_iff (contracts : List ActionBox) (T : String) :
    (firstDeniedRule contracts T).isSome ↔
      ∃ b ∈ contracts, ∃ t ∈ b.deniedTools, t.name = T := by
  rw [firstDeniedRule]
  constructor
  · intro h
    rcases Option.isSome_iff_exists.mp h with ⟨t, ht⟩
    have htm : t ∈ allDenials contracts T := List.mem_of_mem_head? (by
      rw [ht]; rfl)
    rw [allDenials] at htm
    rcases List.mem_flatMap.mp htm with ⟨b, hb, htb⟩
    rw [denialsIn, List.mem_filter] at htb
    exact ⟨b, hb, t, htb.1, by simpa using htb.2⟩
  · rintro ⟨b, hb, t, ht, hn⟩
    rw [Option.isSome_iff_ne_none]
    intro hnone
    have hnil : allDenials contracts T = [] :=
      List.head?_eq_none_iff.mp hnone
    have : t ∈ allDenials contracts T := by
      rw [allDenials, List.mem_flatMap]
      exact ⟨b, hb, by simp [denialsIn, List.mem_filter, ht, hn]⟩
    rw [hnil] at this
    exact List.not_mem_nil _ this

/-! `matcher.ts` — the tool-call evaluator. -/

inductive ViolationType where
  | denied_tool
  | unlisted_tool
  | denied_capability
  | unlisted_capability
  | filesystem_read_violation
  | filesystem_write_violation
  | filesystem_denied
  | network_violation
  | behavior_violation
  | tool_call_limit_exceeded
deriving DecidableEq, Repr

inductive ViolationSeverity where
  | critical
  | high
  | medium
  | low
deriving DecidableEq, Repr

/-- The optional structured `details` bag of a violation: the evaluator
only ever stores a path, a host and/or the claiming skill list. -/
structure VDetails where
  path : Option String
  host : Option String
  claimingSkills : Option (List String)
deriving DecidableEq, Repr

def noDetails : VDetails := ⟨none, none, none⟩

/-- A violation's deterministic fields.  The source's `createViolation`
additionally stamps `id := randomUUID()` and `timestamp := new Date()`,
ambient effects modelled separately by `FullViolation`/`withFreshness`. -/
structure Violation where
  type : ViolationType
  severity : ViolationSeverity
  skillId : String
  toolName : String
  message : String
  rule : String
  details : VDetails
deriving DecidableEq, Repr

/-- A violation as emitted, with the ambient `id` and `timestamp`. -/
structure FullViolation where
  id : String
  timestamp : String
  type : ViolationType
  severity : ViolationSeverity
  skillId : String
  toolName : String
  message : String
  rule : String
  details : VDetails
deriving DecidableEq, Repr

def FullViolation.core (v : FullViolation) : Violation :=
  ⟨v.type, v.severity, v.skillId, v.toolName, v.message, v.rule, v.details⟩

/-- Stamp each violation in emission order with an `(id, timestamp)` pair
drawn from a freshness source (modelling `randomUUID`/`Date`). -/
def withFreshness (fresh : Nat → String × String) :
    Nat → List Violation → List FullViolation
  | _, [] => []
  | i, v :: vs =>
    { id := (fresh i).1, timestamp := (fresh i).2, type := v.type,
      severity := v.severity, skillId := v.skillId, toolName := v.toolName,
      message := v.message, rule := v.rule, details := v.details } ::
      withFreshness fresh (i + 1) vs

theorem withFreshness_map_core (fresh : Nat → String × String)
    (i : Nat) (vs : List Violation) :
    (withFreshness fresh i vs).map FullViolation.core = vs := by
  induction vs generalizing i with
  | nil => rfl
  | cons v rest ih => simp [withFreshness, FullViolation.core, ih]

/-- `matcher.ts` step 1 — the `denied_tool` violation. -/
def deniedToolViolation (toolName : String) (denied : DeniedToolInfo) :
    Violation where
  type := ViolationType.denied_tool
  severity := ViolationSeverity.critical
  skillId := String.intercalate ", " denied.denyingSkills
  toolName := toolName
  message := "Tool \"" ++ toolName ++ "\" is explicitly denied: " ++
    denied.reason
  rule := "deniedTools: " ++ toolName
  details := noDetails

/-- `matcher.ts` step 2 — the `unlisted_tool` violation. -/
def unlistedToolViolation (toolName : String) : Violation where
  type := ViolationType.unlisted_tool
  severity := ViolationSeverity.high
  skillId := "unknown"
  toolName := toolName
  message := "Tool \"" ++ toolName ++
    "\" is not listed in any loaded ActionBox contract"
  rule := "allowedTools (all contracts)"
  details := noDetails

/-- `matcher.ts` step 4 — one globally denied path. -/
def globalFsViolation (toolName : String) (claimingSkills : List String)
    (policy : GlobalPolicy) (filePath : String) : Option Violation :=
  if pathMatchesAny filePath policy.globalDeniedPaths then
    some
      { type := ViolationType.filesystem_denied
        severity := ViolationSeverity.critical
        skillId := claimingSkills.headD "unknown"
        toolName := toolName
        message := "Path \"" ++ filePath ++
          "\" matches a globally denied filesystem pattern"
        rule := "filesystem.denied (global)"
        details := ⟨some filePath, none, none⟩ }
  else none

/-- `matcher.ts` step 5 — one globally denied host (a network check with
only the global deny list). -/
def globalNetViolation (toolName : String) (claimingSkills : List String)
    (policy : GlobalPolicy) (host : String) : Option Violation :=
  match checkNetworkAccess host ⟨[], policy.globalDeniedHosts⟩ with
  | some msg =>
    some
      { type := ViolationType.network_violation
        severity := ViolationSeverity.critical
        skillId := claimingSkills.headD "unknown"
        toolName := toolName
        message := msg
        rule := "network.deniedHosts (global)"
        details := ⟨none, some host, none⟩ }
  | none => none

/-- Does some claiming contract's filesystem rule set permit the path?
The source reads `policy.boxes.get(skillId)!`; a missing box (dead code
under policies produced by the builder) is modelled as not permitting. -/
def anyBoxAllowsFs (policy : GlobalPolicy) (claimingSkills : List String)
    (filePath : String) (operation : FileOp) : Bool :=
  claimingSkills.any (fun skillId =>
    match mget policy.boxes skillId with
    | some box =>
      decide (checkFilesystemAccess filePath operation box.filesystem = none)
    | none => false)

def anyBoxAllowsNet (policy : GlobalPolicy) (claimingSkills : List String)
    (host : String) : Bool :=
  claimingSkills.any (fun skillId =>
    match mget policy.boxes skillId with
    | some box => decide (checkNetworkAccess host box.network = none)
    | none => false)

/-- `matcher.ts` step 6 (paths) — skip paths already globally flagged,
allow when any claiming contract permits, otherwise emit per operation. -/
def perSkillFsViolation (toolName : String) (policy : GlobalPolicy)
    (claimingSkills : List String) (operation : FileOp) (filePath : String) :
    Option Violation :=
  if pathMatchesAny filePath policy.globalDeniedPaths then none
  else if anyBoxAllowsFs policy claimingSkills filePath operation then none
  else
    some
      { type :=
          if operation = FileOp.write then
            ViolationType.filesystem_write_violation
          else ViolationType.filesystem_read_violation
        severity := ViolationSeverity.high
        skillId := String.intercalate ", " claimingSkills
        toolName := toolName
        message :=
          (if operation = FileOp.write then "Write" else "Read") ++
            " access to \"" ++ filePath ++
            "\" is not permitted by any claiming contract"
        rule := "filesystem." ++
          (if operation = FileOp.write then "writable" else "readable")
        details := ⟨some filePath, none, some claimingSkills⟩ }

/-- `matcher.ts` step 6 (hosts). -/
def perSkillNetViolation (toolName : String) (policy : GlobalPolicy)
    (claimingSkills : List String) (host : String) : Option Violation :=
  if checkNetworkAccess host ⟨[], policy.globalDeniedHosts⟩ ≠ none then none
  else if anyBoxAllowsNet policy claimingSkills host then none
  else
    some
      { type := ViolationType.network_violation
        severity := ViolationSeverity.high
        skillId := String.intercalate ", " claimingSkills
        toolName := toolName
        message := "Host \"" ++ host ++
          "\" is not permitted by any claiming contract"
        rule := "network.allowedHosts"
        details := ⟨none, some host, some claimingSkills⟩ }

/-- `matcher.ts` steps 3–6 — extraction, the two global denial passes and
the per-claimant permission passes, in emission order. -/
def pathHostViolations (toolName : String) (params : Params)
    (policy : GlobalPolicy) (claimingSkills : List String) : List Violation :=
  let paths := extractPaths toolName params
  let hosts := extractHosts params
  (paths.filterMap (globalFsViolation toolName claimingSkills policy) ++
      hosts.filterMap (globalNetViolation toolName claimingSkills policy)) ++
    (if claimingSkills ≠ [] then
      paths.filterMap
        (perSkillFsViolation toolName policy claimingSkills
          (inferFileOperation toolName)) ++
        hosts.filterMap (perSkillNetViolation toolName policy claimingSkills)
    else [])

/-- `matcher.ts` — `matchToolCall(toolName, params, policy)`: globally
denied tools short-circuit; otherwise attribution, the unlisted-tool
check, and the filesystem/network passes. -/
def matchToolCall (toolName : String) (params : Params)
    (policy : GlobalPolicy) : List Violation :=
  match mget policy.globalDeniedTools toolName with
  | some denied => [deniedToolViolation toolName denied]
  | none =>
    let claimingSkills := attributeToolToSkills toolName policy
    (if claimingSkills = [] ∧ policy.boxes ≠ [] then
      [unlistedToolViolation toolName]
    else []) ++ pathHostViolations toolName params policy claimingSkills

/-- `capability-matcher.ts` — the result of a semantic classification. -/
structure CapabilityClassification where
  allowed : Bool
  reason : String
  matchedCapability : Option String
deriving DecidableEq, Repr

/-- `capability-matcher.ts` — `CapabilityMatcherCache`, keyed by tool
name; the map state at evaluation time. -/
abbrev CapabilityCache := List (String × CapabilityClassification)

/-- Modelled from the spec: the `critical` `denied_capability` violation
of §4.4 step 4; its message mentions the matched capability string. -/
def deniedCapabilityViolation (toolName cap : String) : Violation where
  type := ViolationType.denied_capability
  severity := ViolationSeverity.critical
  skillId := "unknown"
  toolName := toolName
  message := ("Tool \"" ++ toolName ++ "\" matches a denied capability: ")
    ++ cap
  rule := "deniedCapabilities (all contracts)"
  details := noDetails

/-- Modelled from the spec: the `high` `unlisted_capability` violation of
§4.4 step 4 (classification denied with no matched capability). -/
def unlistedCapabilityViolation (toolName : String) : Violation where
  type := ViolationType.unlisted_capability
  severity := ViolationSeverity.high
  skillId := "unknown"
  toolName := toolName
  message := "Tool \"" ++ toolName ++
    "\" does not match any allowed capability"
  rule := "allowedCapabilities (all contracts)"
  details := noDetails

/-- Modelled from the spec: steps 3–4 of §4.4 for an unlisted tool when a
capability cache is supplied — the matcher revision implementing this is
absent from the sources (only its tests and its caller
`ActionBoxEnforcer.check` remain).  When the policy carries capability
lists, consult the cache: a denied classification with a matched
capability yields `denied_capability`, one without yields
`unlisted_capability`, an allowed one yields nothing, and a cache miss
falls back to `unlisted_tool`. -/
def capabilityStep (toolName : String) (policy : GlobalPolicy)
    (cache : CapabilityCache) : List Violation :=
  if policy.allAllowedCapabilities ≠ [] ∨ policy.allDeniedCapabilities ≠ []
  then
    match mget cache toolName with
    | some cls =>
      if cls.allowed then []
      else
        match cls.matchedCapability with
        | some cap => [deniedCapabilityViolation toolName cap]
        | none => [unlistedCapabilityViolation toolName]
    | none => [unlistedToolViolation toolName]
  else [unlistedToolViolation toolName]

/-- Modelled from the spec: `matchToolCall(toolName, params, policy,
capabilityCache?)` — the final evaluator signature (§4.4, §6).  Identical
to `matchToolCall` except that an unlisted tool consults the capability
cache (when supplied and when capability lists exist) instead of
immediately emitting `unlisted_tool`. -/
def matchToolCallCap (toolName : String) (params : Params)
    (policy : GlobalPolicy) (capabilityCache : Option CapabilityCache) :
    List Violation :=
  match mget policy.globalDeniedTools toolName with
  | some denied => [deniedToolViolation toolName denied]
  | none =>
    let claimingSkills := attributeToolToSkills toolName policy
    (if claimingSkills = [] ∧ policy.boxes ≠ [] then
      match capabilityCache with
      | some cache => capabilityStep toolName policy cache
      | none => [unlistedToolViolation toolName]
    else []) ++ pathHostViolations toolName params policy claimingSkills

/-- The evaluator as emitted to callers: each violation stamped with the
ambient `(randomUUID, timestamp)` pair of its creation. -/
def matchToolCallEmitted (fresh : Nat → String × String) (toolName : String)
    (params : Params) (policy : GlobalPolicy)
    (capabilityCache : Option CapabilityCache) : List FullViolation :=
  withFreshness fresh 0 (matchToolCallCap toolName params policy capabilityCache)

theorem withFreshness_length (fresh : Nat → String × String) (i : Nat)
    (vs : List Violation) : (withFreshness fresh i vs).length = vs.length := by
  induction vs generalizing i with
  | nil => rfl
  | cons v rest ih => simp [withFreshness, ih]

/-! Claim theorems. -/

/-- C7: Zero-contract permissiveness — for every tool name and parameter
bag, `matchToolCall` against `buildGlobalPolicy []` returns the empty
violation list: the policy built from zero contracts has empty denies and
an empty index and enforces nothing. -/
theorem matchToolCall_empty_policy (toolName : String) (params : Params) :
    matchToolCall toolName params (buildGlobalPolicy []) = [] := by
  have h1 : mget (buildGlobalPolicy []).globalDeniedTools toolName = none :=
    rfl
  have hattr : attributeToolToSkills toolName (buildGlobalPolicy []) = [] :=
    rfl
  have hboxes : (buildGlobalPolicy []).boxes = ([] : List (String × ActionBox)) :=
    rfl
  have hdp : (buildGlobalPolicy []).globalDeniedPaths = [] := rfl
  have hdh : (buildGlobalPolicy []).globalDeniedHosts = [] := rfl
  have hfs : ∀ p, globalFsViolation toolName [] (buildGlobalPolicy []) p = none := by
    intro p
    simp [globalFsViolation, hdp, pathMatchesAny]
  have hnet : ∀ hs, globalNetViolation toolName [] (buildGlobalPolicy []) hs = none := by
    intro hs
    simp [globalNetViolation, hdh, checkNetworkAccess]
  simp only [matchToolCall, h1, hattr, hboxes, pathHostViolations]
  rw [List.filterMap_eq_nil_iff.mpr (fun a _ => hfs a),
    List.filterMap_eq_nil_iff.mpr (fun a _ => hnet a)]
  simp

/-- C5: Full contract of `checkFilesystemAccess` — a denied-pattern match
returns the denied message independent of the operation; otherwise a
non-empty allow list for the operation that the path misses returns the
corresponding not-covered message; otherwise `null`.  `pathMatchesAny`
over an empty pattern list is false, and an all-empty rule set always
yields `null` (absence of rules is not a denial). -/
theorem checkFilesystemAccess_contract (p : String) (op : FileOp)
    (rules : FilesystemRules) :
    (pathMatchesAny p rules.denied = true →
      checkFilesystemAccess p op rules =
        some ("Path \"" ++ p ++ "\" matches a denied filesystem pattern")) ∧
    (pathMatchesAny p rules.denied = false → op = FileOp.read →
      rules.readable ≠ [] → pathMatchesAny p rules.readable = false →
      checkFilesystemAccess p op rules =
        some ("Read access to \"" ++ p ++
          "\" is not covered by any readable pattern")) ∧
    (pathMatchesAny p rules.denied = false → op = FileOp.write →
      rules.writable ≠ [] → pathMatchesAny p rules.writable = false →
      checkFilesystemAccess p op rules =
        some ("Write access to \"" ++ p ++
          "\" is not covered by any writable pattern")) ∧
    (pathMatchesAny p rules.denied = false →
      (op = FileOp.read →
        rules.readable = [] ∨ pathMatchesAny p rules.readable = true) →
      (op = FileOp.write →
        rules.writable = [] ∨ pathMatchesAny p rules.writable = true) →
      checkFilesystemAccess p op rules = none) ∧
    pathMatchesAny p [] = false ∧
    checkFilesystemAccess p op ⟨[], [], []⟩ = none := by
  refine ⟨?_, ?_, ?_, ?_, ?_, ?_⟩
  · intro h
    simp [checkFilesystemAccess, h]
  · intro hd hop hne hnm
    subst hop
    simp [checkFilesystemAccess, hd, hne, hnm]
  · intro hd hop hne hnm
    subst hop
    simp [checkFilesystemAccess, hd, hne, hnm]
  · intro hd h1 h2
    cases op with
    | read =>
      rcases h1 rfl with he | hm
      · simp [checkFilesystemAccess, hd, he]
      · simp [checkFilesystemAccess, hd, hm]
    | write =>
      rcases h2 rfl with he | hm
      · simp [checkFilesystemAccess, hd, he]
      · simp [checkFilesystemAccess, hd, hm]
  · simp [pathMatchesAny]
  · cases op <;> simp [checkFilesystemAccess, pathMatchesAny]

/-- Witness for C5 at a concrete denied path. -/
theorem checkFilesystemAccess_contract_witness :
    checkFilesystemAccess "/a/b" FileOp.read
        ⟨["/other/**"], [], ["/a/**"]⟩ =
      some ("Path \"" ++ "/a/b" ++ "\" matches a denied filesystem pattern") :=
  (checkFilesystemAccess_contract "/a/b" FileOp.read
    ⟨["/other/**"], [], ["/a/**"]⟩).1 (by decide)

/-- C6: Full contract of `checkNetworkAccess` and host wildcard
semantics — the deny list is checked first (a denied message even when an
allow pattern also matches); otherwise a non-empty allow list missed by
the host rejects; otherwise `null` (empty allow list is unrestricted).
A `*.suffix` wildcard matches exactly the hosts ending in `.suffix`:
every `sub.domain` but never the bare `domain` itself. -/
theorem checkNetworkAccess_contract (hst : String) (rules : NetworkRules) :
    (rules.deniedHosts.any (fun pat => hostMatches hst pat) = true →
      ∃ pat ∈ rules.deniedHosts, hostMatches hst pat = true ∧
        checkNetworkAccess hst rules =
          some ("Host \"" ++ hst ++ "\" matches denied pattern \"" ++
            pat ++ "\"")) ∧
    (rules.deniedHosts.any (fun pat => hostMatches hst pat) = false →
      rules.allowedHosts ≠ [] →
      rules.allowedHosts.any (fun pat => hostMatches hst pat) = false →
      checkNetworkAccess hst rules =
        some ("Host \"" ++ hst ++ "\" is not in the allowed hosts list")) ∧
    (rules.deniedHosts.any (fun pat => hostMatches hst pat) = false →
      (rules.allowedHosts = [] ∨
        rules.allowedHosts.any (fun pat => hostMatches hst pat) = true) →
      checkNetworkAccess hst rules = none) ∧
    (∀ hostX dom : String,
      hostMatches hostX ("*." ++ dom) = strEndsWith hostX ("." ++ dom)) ∧
    (∀ sub dom : String,
      hostMatches (sub ++ "." ++ dom) ("*." ++ dom) = true) ∧
    (∀ dom : String, hostMatches dom ("*." ++ dom) = false) := by
  have hwild : ∀ hostX dom : String,
      hostMatches hostX ("*." ++ dom) = strEndsWith hostX ("." ++ dom) := by
    intro hostX dom
    have hnstar : ("*." ++ dom : String) ≠ "*" := by
      intro hc
      have hlen := congrArg String.length hc
      rw [String.length_append] at hlen
      have h2 : ("*." : String).length = 2 := by decide
      have h1 : ("*" : String).length = 1 := by decide
      omega
    have hpre : strStartsWith ("*." ++ dom) "*." = true := by
      rw [strStartsWith, List.isPrefixOf_iff_prefix, String.data_append]
      exact List.prefix_append _ _
    have hdrop : strDrop ("*." ++ dom) 1 = "." ++ dom := rfl
    simp [hostMatches, hnstar, hpre, hdrop]
  refine ⟨?_, ?_, ?_, hwild, ?_, ?_⟩
  · intro h
    rcases List.any_eq_true.mp h with ⟨pat, hmem, hp⟩
    have hsome : (rules.deniedHosts.find?
        (fun pat => hostMatches hst pat)).isSome :=
      List.find?_isSome.mpr ⟨pat, hmem, hp⟩
    rcases Option.isSome_iff_exists.mp hsome with ⟨pat2, hfind⟩
    refine ⟨pat2, List.mem_of_find?_eq_some hfind,
      List.find?_some hfind, ?_⟩
    simp [checkNetworkAccess, hfind]
  · intro hd hne hnm
    have hfind : rules.deniedHosts.find?
        (fun pat => hostMatches hst pat) = none := by
      rw [List.find?_eq_none]
      intro pat hmem
      exact List.any_eq_false.mp hd pat hmem
    simp [checkNetworkAccess, hfind, hne, hnm]
  · intro hd hall
    have hfind : rules.deniedHosts.find?
        (fun pat => hostMatches hst pat) = none := by
      rw [List.find?_eq_none]
      intro pat hmem
      exact List.any_eq_false.mp hd pat hmem
    rcases hall with he | hm
    · simp [checkNetworkAccess, hfind, he]
    · simp [checkNetworkAccess, hfind, hm]
  · intro sub dom
    rw [hwild, strEndsWith, List.isSuffixOf_iff_suffix, String.data_append,
      String.data_append, String.data_append, List.append_assoc]
    exact List.suffix_append _ _
  · intro dom
    rw [hwild, strEndsWith]
    rw [Bool.eq_false_iff]
    intro hsuf
    have hle := (List.isSuffixOf_iff_suffix.mp hsuf).length_le
    rw [String.data_append] at hle
    simp at hle

/-- Witness for C6: deny beats a universal allow, and the wildcard facts
at the spec's own example hosts. -/
theorem checkNetworkAccess_contract_witness :
    (∃ pat ∈ (NetworkRules.mk ["*"] ["evil.com"]).deniedHosts,
      hostMatches "evil.com" pat = true ∧
      checkNetworkAccess "evil.com" ⟨["*"], ["evil.com"]⟩ =
        some ("Host \"" ++ "evil.com" ++ "\" matches denied pattern \"" ++
          pat ++ "\"")) ∧
    hostMatches ("api" ++ "." ++ "slack.com") ("*." ++ "slack.com") = true ∧
    hostMatches "slack.com" ("*." ++ "slack.com") = false :=
  ⟨(checkNetworkAccess_contract "evil.com" ⟨["*"], ["evil.com"]⟩).1
      (by decide),
    (checkNetworkAccess_contract "x" ⟨[], []⟩).2.2.2.2.1 "api" "slack.com",
    (checkNetworkAccess_contract "x" ⟨[], []⟩).2.2.2.2.2 "slack.com"⟩


/-! Sample contracts used by the concrete witnesses. -/

def boxAllowT : ActionBox :=
  ⟨"skill-a", "Skill A", [⟨"t", "needs it"⟩], [], [], [], ⟨[], [], []⟩,
    ⟨[], []⟩⟩

def boxDenyT1 : ActionBox :=
  ⟨"skill-b", "Skill B", [], [⟨"t", "reason one"⟩], [], [],
    ⟨[], [], ["**"]⟩, ⟨[], ["evil.com"]⟩⟩

def boxDenyT2 : ActionBox :=
  ⟨"skill-c", "Skill C", [], [⟨"t", "reason two"⟩], [], [], ⟨[], [], []⟩,
    ⟨[], []⟩⟩

/-- C3: Allow-overrides-deny invariant — a tool name indexed in
`toolIndex` (listed under some contract's `allowedTools`) never appears
in `globalDeniedTools`, even when other contracts deny it. -/
theorem buildGlobalPolicy_allow_overrides_deny (contracts : List ActionBox)
    (T : String)
    (h : (mget (buildGlobalPolicy contracts).toolIndex T).isSome) :
    mget (buildGlobalPolicy contracts).globalDeniedTools T = none := by
  rw [mget_toolIndex_build] at h
  by_cases hc : claimersOf contracts T = []
  · rw [if_pos hc] at h
    simp at h
  · have hex : ∃ b ∈ contracts, ∃ t ∈ b.allowedTools, t.name = T := by
      by_contra hno
      push_neg at hno
      exact hc ((claimersOf_eq_nil_iff contracts T).mpr hno)
    rw [mget_globalDeniedTools_build, if_pos hex]

/-- Witness for C3: `t` is allowed by one contract and denied by another,
and is not globally denied. -/
theorem buildGlobalPolicy_allow_overrides_deny_witness :
    mget (buildGlobalPolicy [boxAllowT, boxDenyT1]).globalDeniedTools "t" =
      none :=
  buildGlobalPolicy_allow_overrides_deny [boxAllowT, boxDenyT1] "t"
    (by decide)

/-- C10: First denier's reason wins — when two or more contracts deny the
same tool name and none allows it, the single `globalDeniedTools` entry
carries the reason of the first denying contract in input order, while
`denyingSkills` accumulates all denying skill IDs in input order. -/
theorem buildGlobalPolicy_first_denier_reason (contracts : List ActionBox)
    (T : String)
    (hallow : ∀ b ∈ contracts, ∀ t ∈ b.allowedTools, t.name ≠ T)
    (hmulti : 2 ≤ (deniersOf contracts T).length) :
    ∃ t, firstDeniedRule contracts T = some t ∧
      mget (buildGlobalPolicy contracts).globalDeniedTools T =
        some ⟨t.reason, deniersOf contracts T⟩ := by
  have hnall : ¬ ∃ b ∈ contracts, ∃ t ∈ b.allowedTools, t.name = T := by
    rintro ⟨b, hb, t, ht, hn⟩
    exact hallow b hb t ht hn
  have hne : deniersOf contracts T ≠ [] := by
    intro hnil
    rw [hnil] at hmulti
    simp at hmulti
  obtain ⟨sk, hsk⟩ := List.exists_mem_of_ne_nil _ hne
  rw [deniersOf] at hsk
  rcases List.mem_flatMap.mp hsk with ⟨b, hb, hin⟩
  rcases List.mem_map.mp hin with ⟨t, htin, _⟩
  rw [denialsIn, List.mem_filter] at htin
  have hex : ∃ b ∈ contracts, ∃ t ∈ b.deniedTools, t.name = T :=
    ⟨b, hb, t, htin.1, by simpa using htin.2⟩
  rcases Option.isSome_iff_exists.mp
    (firstDeniedRule_isSome_iff contracts T |>.mpr hex) with ⟨t0, ht0⟩
  refine ⟨t0, ht0, ?_⟩
  rw [mget_globalDeniedTools_build, if_neg hnall, ht0]
  rfl

/-- Witness for C10: two contracts deny `t` with different reasons; the
entry keeps the first reason and lists both skills in order. -/
theorem buildGlobalPolicy_first_denier_reason_witness :
    ∃ t, firstDeniedRule [boxDenyT1, boxDenyT2] "t" = some t ∧
      mget (buildGlobalPolicy [boxDenyT1, boxDenyT2]).globalDeniedTools "t" =
        some ⟨t.reason, deniersOf [boxDenyT1, boxDenyT2] "t"⟩ :=
  buildGlobalPolicy_first_denier_reason [boxDenyT1, boxDenyT2] "t"
    (by decide) (by decide)

/-- C2: Globally-denied-tool short circuit — a tool denied by some
contract and allowed by none yields exactly one `critical` `denied_tool`
violation naming all denying skills, for every parameter bag; no
filesystem, network or unlisted checks run. -/
theorem matchToolCall_denied_tool_short_circuit (contracts : List ActionBox)
    (toolName : String) (params : Params)
    (hden : ∃ b ∈ contracts, ∃ t ∈ b.deniedTools, t.name = toolName)
    (hallow : ∀ b ∈ contracts, ∀ t ∈ b.allowedTools, t.name ≠ toolName) :
    ∃ t, firstDeniedRule contracts toolName = some t ∧
      matchToolCall toolName params (buildGlobalPolicy contracts) =
        [{ type := ViolationType.denied_tool
           severity := ViolationSeverity.critical
           skillId := String.intercalate ", " (deniersOf contracts toolName)
           toolName := toolName
           message := "Tool \"" ++ toolName ++ "\" is explicitly denied: " ++
             t.reason
           rule := "deniedTools: " ++ toolName
           details := noDetails }] := by
  have hnall : ¬ ∃ b ∈ contracts, ∃ t ∈ b.allowedTools, t.name = toolName := by
    rintro ⟨b, hb, t, ht, hn⟩
    exact hallow b hb t ht hn
  rcases Option.isSome_iff_exists.mp
    (firstDeniedRule_isSome_iff contracts toolName |>.mpr hden) with ⟨t, ht⟩
  have hm : mget (buildGlobalPolicy contracts).globalDeniedTools toolName =
      some ⟨t.reason, deniersOf contracts toolName⟩ := by
    rw [mget_globalDeniedTools_build, if_neg hnall, ht]
    rfl
  refine ⟨t, ht, ?_⟩
  simp [matchToolCall, hm, deniedToolViolation]

/-- Witness for C2: `t` denied by two contracts, allowed by none, called
with a parameter bag naming a globally denied path — still exactly the
one `denied_tool` violation. -/
theorem matchToolCall_denied_tool_short_circuit_witness :
    ∃ t, firstDeniedRule [boxDenyT1, boxDenyT2] "t" = some t ∧
      matchToolCall "t" [("path", JValue.str "/etc/passwd")]
          (buildGlobalPolicy [boxDenyT1, boxDenyT2]) =
        [{ type := ViolationType.denied_tool
           severity := ViolationSeverity.critical
           skillId := String.intercalate ", " (deniersOf [boxDenyT1, boxDenyT2] "t")
           toolName := "t"
           message := "Tool \"" ++ "t" ++ "\" is explicitly denied: " ++
             t.reason
           rule := "deniedTools: " ++ "t"
           details := noDetails }] :=
  matchToolCall_denied_tool_short_circuit [boxDenyT1, boxDenyT2] "t"
    [("path", JValue.str "/etc/passwd")] (by decide) (by decide)


/-- C1: Capability fallback decision — for an unlisted tool under a
non-empty contract set, a policy carrying capability lists and a supplied
cache: a cached denial with a matched capability yields the one critical
`denied_capability` violation mentioning that capability; a cached denial
without one yields the one high `unlisted_capability` violation; a cached
allowance yields no violation from this step while the filesystem/network
checks still run; a cache miss yields the one high `unlisted_tool`
violation. -/
theorem matchToolCallCap_capability_fallback (toolName : String)
    (params : Params) (policy : GlobalPolicy) (cache : CapabilityCache)
    (hnd : mget policy.globalDeniedTools toolName = none)
    (hattr : attributeToolToSkills toolName policy = [])
    (hboxes : policy.boxes ≠ [])
    (hcaps : policy.allAllowedCapabilities ≠ [] ∨
      policy.allDeniedCapabilities ≠ []) :
    (∀ cls cap, mget cache toolName = some cls → cls.allowed = false →
      cls.matchedCapability = some cap →
      matchToolCallCap toolName params policy (some cache) =
        deniedCapabilityViolation toolName cap ::
          pathHostViolations toolName params policy [] ∧
      strContains (deniedCapabilityViolation toolName cap).message cap =
        true) ∧
    (∀ cls, mget cache toolName = some cls → cls.allowed = false →
      cls.matchedCapability = none →
      matchToolCallCap toolName params policy (some cache) =
        unlistedCapabilityViolation toolName ::
          pathHostViolations toolName params policy []) ∧
    (∀ cls, mget cache toolName = some cls → cls.allowed = true →
      matchToolCallCap toolName params policy (some cache) =
        pathHostViolations toolName params policy []) ∧
    (mget cache toolName = none →
      matchToolCallCap toolName params policy (some cache) =
        unlistedToolViolation toolName ::
          pathHostViolations toolName params policy []) := by
  have hred : matchToolCallCap toolName params policy (some cache) =
      capabilityStep toolName policy cache ++
        pathHostViolations toolName params policy [] := by
    simp [matchToolCallCap, hnd, hattr, hboxes]
  refine ⟨?_, ?_, ?_, ?_⟩
  · intro cls cap hc ha hm
    refine ⟨?_, ?_⟩
    · rw [hred]
      simp [capabilityStep, hcaps, hc, ha, hm]
    · exact strContains_append_right _ cap
  · intro cls hc ha hm
    rw [hred]
    simp [capabilityStep, hcaps, hc, ha, hm]
  · intro cls hc ha
    rw [hred]
    simp [capabilityStep, hcaps, hc, ha]
  · intro hc
    rw [hred]
    simp [capabilityStep, hcaps, hc]

/-- A contract with no named tools and non-empty capability lists, and a
policy built from it, used by the C1 witness. -/
def capOnlyBox : ActionBox :=
  ⟨"calendar-sync", "Calendar Sync", [], [],
    ["Google Calendar read-only access"], ["Shell or command execution"],
    ⟨[], [], []⟩, ⟨[], []⟩⟩

/-- Witness for C1: cached `{allowed:false, matchedCapability:"Shell or
command execution"}` produces the denied-capability violation whose
message mentions the capability, on the policy built from `capOnlyBox`. -/
theorem matchToolCallCap_capability_fallback_witness :
    matchToolCallCap "shell_exec" [] (buildGlobalPolicy [capOnlyBox])
        (some [("shell_exec",
          ⟨false, "matches denied", some "Shell or command execution"⟩)]) =
      deniedCapabilityViolation "shell_exec" "Shell or command execution" ::
        pathHostViolations "shell_exec" [] (buildGlobalPolicy [capOnlyBox])
          [] ∧
    strContains
        (deniedCapabilityViolation "shell_exec"
          "Shell or command execution").message
        "Shell or command execution" = true :=
  (matchToolCallCap_capability_fallback "shell_exec" []
      (buildGlobalPolicy [capOnlyBox])
      [("shell_exec",
        ⟨false, "matches denied", some "Shell or command execution"⟩)]
      (by decide) (by decide) (by decide) (Or.inl (by decide))).1
    ⟨false, "matches denied", some "Shell or command execution"⟩
    "Shell or command execution" (by decide) rfl rfl

/-- C9: Determinism up to freshness — two emissions of the evaluator with
identical tool name, params, policy and capability cache but different
freshness sources have the same length and agree pairwise, in order, on
every field except `id` and `timestamp`. -/
theorem matchToolCallEmitted_deterministic (f1 f2 : Nat → String × String)
    (toolName : String) (params : Params) (policy : GlobalPolicy)
    (cache : Option CapabilityCache) :
    (matchToolCallEmitted f1 toolName params policy cache).length =
      (matchToolCallEmitted f2 toolName params policy cache).length ∧
    (matchToolCallEmitted f1 toolName params policy cache).map
        FullViolation.core =
      (matchToolCallEmitted f2 toolName params policy cache).map
        FullViolation.core := by
  constructor
  · rw [matchToolCallEmitted, matchToolCallEmitted, withFreshness_length,
      withFreshness_length]
  · rw [matchToolCallEmitted, matchToolCallEmitted, withFreshness_map_core,
      withFreshness_map_core]


/-- C8: Extractor totality — the extractors are total functions of the
parameter bag (they never raise): a non-string value at a recognized
path key, a non-string value at any key consulted by the host extractor,
and a string at a URL-like key that does not parse as a URL, are each
skipped exactly as if the entry were absent. -/
theorem extractor_totality (toolName : String) (params : Params)
    (k : String) (v : JValue) :
    (k ∈ PATH_KEYS → getParam params k = some v →
      (∀ s, v ≠ JValue.str s) →
      extractPaths toolName params =
        extractPaths toolName (removeParam params k)) ∧
    (getParam params k = some v → (∀ s, v ≠ JValue.str s) →
      extractHosts params = extractHosts (removeParam params k)) ∧
    (∀ s, k ∈ URL_KEYS → getParam params k = some (JValue.str s) →
      parseUrlHostname s = none →
      extractHosts params = extractHosts (removeParam params k)) := by
  refine ⟨?_, ?_, ?_⟩
  · intro hk hv hns
    have hlit : ∀ x ∈ PATH_KEYS,
        x ≠ "command" ∧ x ≠ "cmd" ∧ x ≠ "pattern" := by decide
    rcases hlit k hk with ⟨hc1, hc2, hc3⟩
    unfold extractPaths
    have hkeys : PATH_KEYS.filterMap (fun key => pathFromKey params key) =
        PATH_KEYS.filterMap
          (fun key => pathFromKey (removeParam params k) key) := by
      refine List.filterMap_congr ?_
      intro key hkey
      by_cases hkk : key = k
      · subst hkk
        rw [pathFromKey, pathFromKey, hv, getParam_removeParam_self]
        cases v with
        | str s => exact absurd rfl (hns s)
        | num n => rfl
        | bool b => rfl
        | null => rfl
        | arr l => rfl
        | obj l => rfl
      · rw [pathFromKey, pathFromKey, getParam_removeParam_ne _ _ _ hkk]
    have hcmd : commandParam (removeParam params k) = commandParam params := by
      rw [commandParam, commandParam,
        getParam_removeParam_ne _ _ _ (fun hc => hc1 hc.symm),
        getParam_removeParam_ne _ _ _ (fun hc => hc2 hc.symm)]
    have hglob :
        (match getParam params "pattern", getParam params "path" with
          | some pv, some (JValue.str p) => if truthy pv then [p] else []
          | _, _ => ([] : List String)) =
        (match getParam (removeParam params k) "pattern",
            getParam (removeParam params k) "path" with
          | some pv, some (JValue.str p) => if truthy pv then [p] else []
          | _, _ => ([] : List String)) := by
      rw [getParam_removeParam_ne _ _ _ (fun hc => hc3 hc.symm)]
      by_cases hkp : k = "path"
      · subst hkp
        rw [getParam_removeParam_self, hv]
        cases v with
        | str s => exact absurd rfl (hns s)
        | num n => cases getParam params "pattern" <;> rfl
        | bool b => cases getParam params "pattern" <;> rfl
        | null => cases getParam params "pattern" <;> rfl
        | arr l => cases getParam params "pattern" <;> rfl
        | obj l => cases getParam params "pattern" <;> rfl
      · rw [getParam_removeParam_ne _ _ _ (fun hc => hkp hc.symm)]
    rw [hkeys, hcmd, hglob]
  · intro hv hns
    unfold extractHosts
    have hurl : URL_KEYS.filterMap (fun key => hostFromUrlKey params key) =
        URL_KEYS.filterMap
          (fun key => hostFromUrlKey (removeParam params k) key) := by
      refine List.filterMap_congr ?_
      intro key hkey
      by_cases hkk : key = k
      · subst hkk
        rw [hostFromUrlKey, hostFromUrlKey, hv, getParam_removeParam_self]
        cases v with
        | str s => exact absurd rfl (hns s)
        | num n => rfl
        | bool b => rfl
        | null => rfl
        | arr l => rfl
        | obj l => rfl
      · rw [hostFromUrlKey, hostFromUrlKey,
          getParam_removeParam_ne _ _ _ hkk]
    have hhost : HOST_KEYS.filterMap (fun key => hostFromHostKey params key) =
        HOST_KEYS.filterMap
          (fun key => hostFromHostKey (removeParam params k) key) := by
      refine List.filterMap_congr ?_
      intro key hkey
      by_cases hkk : key = k
      · subst hkk
        rw [hostFromHostKey, hostFromHostKey, hv, getParam_removeParam_self]
        cases v with
        | str s => exact absurd rfl (hns s)
        | num n => rfl
        | bool b => rfl
        | null => rfl
        | arr l => rfl
        | obj l => rfl
      · rw [hostFromHostKey, hostFromHostKey,
          getParam_removeParam_ne _ _ _ hkk]
    rw [hurl, hhost]
  · intro s hk hv hp
    have hdisj : ∀ x ∈ URL_KEYS, ¬ x ∈ HOST_KEYS := by decide
    unfold extractHosts
    have hurl : URL_KEYS.filterMap (fun key => hostFromUrlKey params key) =
        URL_KEYS.filterMap
          (fun key => hostFromUrlKey (removeParam params k) key) := by
      refine List.filterMap_congr ?_
      intro key hkey
      by_cases hkk : key = k
      · subst hkk
        rw [hostFromUrlKey, hostFromUrlKey, hv, getParam_removeParam_self]
        by_cases hlen : s.length > 0
        · simp [hlen, hp]
        · simp [hlen]
      · rw [hostFromUrlKey, hostFromUrlKey,
          getParam_removeParam_ne _ _ _ hkk]
    have hhost : HOST_KEYS.filterMap (fun key => hostFromHostKey params key) =
        HOST_KEYS.filterMap
          (fun key => hostFromHostKey (removeParam params k) key) := by
      refine List.filterMap_congr ?_
      intro key hkey
      have hkk : key ≠ k := fun hc => hdisj k hk (hc ▸ hkey)
      rw [hostFromHostKey, hostFromHostKey,
        getParam_removeParam_ne _ _ _ hkk]
    rw [hurl, hhost]

/-- Witness for C8: a number at `path` and an unparseable string at `url`
are both skipped exactly as if absent. -/
theorem extractor_totality_witness :
    (extractPaths "t" [("path", JValue.num 3)] =
      extractPaths "t" (removeParam [("path", JValue.num 3)] "path")) ∧
    (extractHosts [("url", JValue.str "not a url")] =
      extractHosts (removeParam [("url", JValue.str "not a url")] "url")) :=
  ⟨(extractor_totality "t" [("path", JValue.num 3)] "path"
      (JValue.num 3)).1 (by decide) rfl (fun s h => JValue.noConfusion h),
   (extractor_totality "t" [("url", JValue.str "not a url")] "url"
      (JValue.str "not a url")).2.2 "not a url" (by decide) rfl (by decide)⟩


/-! Helper lemmas for the multi-claimant analysis (C4). -/

theorem anyBoxAllowsFs_iff (policy : GlobalPolicy) (cs : List String)
    (q : String) (op : FileOp) :
    anyBoxAllowsFs policy cs q op = true ↔
      ∃ sk ∈ cs, ∃ box, mget policy.boxes sk = some box ∧
        checkFilesystemAccess q op box.filesystem = none := by
  rw [anyBoxAllowsFs, List.any_eq_true]
  constructor
  · rintro ⟨sk, hsk, hp⟩
    cases hbox : mget policy.boxes sk with
    | none => rw [hbox] at hp; cases hp
    | some box =>
      rw [hbox] at hp
      exact ⟨sk, hsk, box, hbox, of_decide_eq_true hp⟩
  · rintro ⟨sk, hsk, box, hbox, hchk⟩
    refine ⟨sk, hsk, ?_⟩
    rw [hbox]
    exact decide_eq_true hchk

theorem anyBoxAllowsNet_iff (policy : GlobalPolicy) (cs : List String)
    (q : String) :
    anyBoxAllowsNet policy cs q = true ↔
      ∃ sk ∈ cs, ∃ box, mget policy.boxes sk = some box ∧
        checkNetworkAccess q box.network = none := by
  rw [anyBoxAllowsNet, List.any_eq_true]
  constructor
  · rintro ⟨sk, hsk, hp⟩
    cases hbox : mget policy.boxes sk with
    | none => rw [hbox] at hp; cases hp
    | some box =>
      rw [hbox] at hp
      exact ⟨sk, hsk, box, hbox, of_decide_eq_true hp⟩
  · rintro ⟨sk, hsk, box, hbox, hchk⟩
    refine ⟨sk, hsk, ?_⟩
    rw [hbox]
    exact decide_eq_true hchk

theorem globalFsViolation_shape {tn : String} {cs : List String}
    {pol : GlobalPolicy} {q : String} {v : Violation}
    (h : globalFsViolation tn cs pol q = some v) :
    v.details = ⟨some q, none, none⟩ ∧
      pathMatchesAny q pol.globalDeniedPaths = true := by
  rw [globalFsViolation] at h
  by_cases hm : pathMatchesAny q pol.globalDeniedPaths
  · rw [if_pos hm] at h
    injection h with h2
    subst h2
    exact ⟨rfl, hm⟩
  · rw [if_neg hm] at h
    cases h

theorem globalNetViolation_shape {tn : String} {cs : List String}
    {pol : GlobalPolicy} {q : String} {v : Violation}
    (h : globalNetViolation tn cs pol q = some v) :
    v.details = ⟨none, some q, none⟩ ∧
      checkNetworkAccess q ⟨[], pol.globalDeniedHosts⟩ ≠ none := by
  rw [globalNetViolation] at h
  cases hc : checkNetworkAccess q ⟨[], pol.globalDeniedHosts⟩ with
  | some msg =>
    rw [hc] at h
    injection h with h2
    subst h2
    exact ⟨rfl, by simp [hc]⟩
  | none =>
    rw [hc] at h
    cases h

theorem perSkillFsViolation_shape {tn : String} {pol : GlobalPolicy}
    {cs : List String} {op : FileOp} {q : String} {v : Violation}
    (h : perSkillFsViolation tn pol cs op q = some v) :
    v.details = ⟨some q, none, some cs⟩ := by
  rw [perSkillFsViolation] at h
  by_cases h1 : pathMatchesAny q pol.globalDeniedPaths
  · rw [if_pos h1] at h
    cases h
  · rw [if_neg h1] at h
    by_cases h2 : anyBoxAllowsFs pol cs q op
    · rw [if_pos h2] at h
      cases h
    · rw [if_neg h2] at h
      injection h with h2
      subst h2
      rfl

theorem perSkillNetViolation_shape {tn : String} {pol : GlobalPolicy}
    {cs : List String} {q : String} {v : Violation}
    (h : perSkillNetViolation tn pol cs q = some v) :
    v.details = ⟨none, some q, some cs⟩ := by
  rw [perSkillNetViolation] at h
  by_cases h1 : checkNetworkAccess q ⟨[], pol.globalDeniedHosts⟩ ≠ none
  · rw [if_pos h1] at h
    cases h
  · rw [if_neg h1] at h
    by_cases h2 : anyBoxAllowsNet pol cs q
    · rw [if_pos h2] at h
      cases h
    · rw [if_neg h2] at h
      injection h with h2
      subst h2
      rfl

theorem filter_filterMap_eq {α β : Type} (l : List α) (f : α → Option β)
    (pr : β → Bool) :
    (l.filterMap f).filter pr =
      l.filterMap (fun a =>
        match f a with
        | some b => if pr b then some b else none
        | none => none) := by
  induction l with
  | nil => rfl
  | cons a rest ih =>
    cases hf : f a with
    | none => simp [List.filterMap_cons, hf, ih]
    | some b =>
      by_cases hb : pr b <;>
        simp [List.filterMap_cons, hf, List.filter_cons, hb, ih]

theorem filterMap_eq_singleton_of {α β : Type} (l : List α)
    (g : α → Option β) (a : α) (x : β) (hnd : l.Nodup) (ha : a ∈ l)
    (hx : g a = some x) (hother : ∀ q ∈ l, q ≠ a → g q = none) :
    l.filterMap g = [x] := by
  induction l with
  | nil => cases ha
  | cons b rest ih =>
    rcases List.mem_cons.mp ha with rfl | harest
    · rw [List.filterMap_cons, hx]
      have hrest : rest.filterMap g = [] := by
        rw [List.filterMap_eq_nil_iff]
        intro q hq
        have hqa : q ≠ a := by
          intro hc
          subst hc
          exact (List.nodup_cons.mp hnd).1 hq
        exact hother q (List.mem_cons_of_mem _ hq) hqa
      simp [hrest]
    · have hba : b ≠ a := by
        intro hc
        subst hc
        exact (List.nodup_cons.mp hnd).1 harest
      rw [List.filterMap_cons, hother b (List.mem_cons_self _ _) hba]
      simpa using ih (List.nodup_cons.mp hnd).2 harest
        (fun q hq hqa => hother q (List.mem_cons_of_mem _ hq) hqa)

theorem extractPaths_nodup (toolName : String) (params : Params) :
    (extractPaths toolName params).Nodup := by
  unfold extractPaths
  exact nodup_dedupFirst _

theorem extractHosts_nodup (params : Params) :
    (extractHosts params).Nodup := by
  unfold extractHosts
  exact nodup_dedupFirst _

/-- The evaluator on a non-denied tool with a non-empty claimant set is
exactly its four filesystem/network passes, in order. -/
theorem matchToolCall_reduces (toolName : String) (params : Params)
    (policy : GlobalPolicy)
    (hnd : mget policy.globalDeniedTools toolName = none)
    (hne : attributeToolToSkills toolName policy ≠ []) :
    matchToolCall toolName params policy =
      (extractPaths toolName params).filterMap
          (globalFsViolation toolName
            (attributeToolToSkills toolName policy) policy) ++
        (extractHosts params).filterMap
          (globalNetViolation toolName
            (attributeToolToSkills toolName policy) policy) ++
        ((extractPaths toolName params).filterMap
            (perSkillFsViolation toolName policy
              (attributeToolToSkills toolName policy)
              (inferFileOperation toolName)) ++
          (extractHosts params).filterMap
            (perSkillNetViolation toolName policy
              (attributeToolToSkills toolName policy))) := by
  simp [matchToolCall, hnd, hne, pathHostViolations]

/-- The violations of a list that reference a given path in `details`. -/
def fsViolationsFor (p : String) (vs : List Violation) : List Violation :=
  vs.filter (fun v => decide (v.details.path = some p))

/-- The violations of a list that reference a given host in `details`. -/
def netViolationsFor (hst : String) (vs : List Violation) : List Violation :=
  vs.filter (fun v => decide (v.details.host = some hst))


/-! Per-segment facts: which segments can reference a given path/host. -/

theorem filter_path_globalFs (tn : String) (cs : List String)
    (pol : GlobalPolicy) (p : String) (paths : List String)
    (hglob : pathMatchesAny p pol.globalDeniedPaths = false) :
    (paths.filterMap (globalFsViolation tn cs pol)).filter
      (fun v => decide (v.details.path = some p)) = [] := by
  rw [List.filter_eq_nil_iff]
  intro v hv
  rcases List.mem_filterMap.mp hv with ⟨q, hq, hfq⟩
  obtain ⟨hd, hm⟩ := globalFsViolation_shape hfq
  simp only [hd, decide_eq_true_eq]
  intro hqp
  rw [Option.some.inj hqp] at hm
  rw [hglob] at hm
  cases hm

theorem filter_path_globalNet (tn : String) (cs : List String)
    (pol : GlobalPolicy) (p : String) (hosts : List String) :
    (hosts.filterMap (globalNetViolation tn cs pol)).filter
      (fun v => decide (v.details.path = some p)) = [] := by
  rw [List.filter_eq_nil_iff]
  intro v hv
  rcases List.mem_filterMap.mp hv with ⟨q, hq, hfq⟩
  obtain ⟨hd, _⟩ := globalNetViolation_shape hfq
  simp [hd]

theorem filter_path_perSkillNet (tn : String) (pol : GlobalPolicy)
    (cs : List String) (p : String) (hosts : List String) :
    (hosts.filterMap (perSkillNetViolation tn pol cs)).filter
      (fun v => decide (v.details.path = some p)) = [] := by
  rw [List.filter_eq_nil_iff]
  intro v hv
  rcases List.mem_filterMap.mp hv with ⟨q, hq, hfq⟩
  have hd := perSkillNetViolation_shape hfq
  simp [hd]

theorem filter_path_perSkillFs_nil (tn : String) (pol : GlobalPolicy)
    (cs : List String) (op : FileOp) (p : String) (paths : List String)
    (hnone : perSkillFsViolation tn pol cs op p = none) :
    (paths.filterMap (perSkillFsViolation tn pol cs op)).filter
      (fun v => decide (v.details.path = some p)) = [] := by
  rw [List.filter_eq_nil_iff]
  intro v hv
  rcases List.mem_filterMap.mp hv with ⟨q, hq, hfq⟩
  have hd := perSkillFsViolation_shape hfq
  simp only [hd, decide_eq_true_eq]
  intro hqp
  rw [Option.some.inj hqp] at hfq
  rw [hnone] at hfq
  cases hfq

theorem filter_host_globalFs (tn : String) (cs : List String)
    (pol : GlobalPolicy) (hst : String) (paths : List String) :
    (paths.filterMap (globalFsViolation tn cs pol)).filter
      (fun v => decide (v.details.host = some hst)) = [] := by
  rw [List.filter_eq_nil_iff]
  intro v hv
  rcases List.mem_filterMap.mp hv with ⟨q, hq, hfq⟩
  obtain ⟨hd, _⟩ := globalFsViolation_shape hfq
  simp [hd]

theorem filter_host_perSkillFs (tn : String) (pol : GlobalPolicy)
    (cs : List String) (op : FileOp) (hst : String) (paths : List String) :
    (paths.filterMap (perSkillFsViolation tn pol cs op)).filter
      (fun v => decide (v.details.host = some hst)) = [] := by
  rw [List.filter_eq_nil_iff]
  intro v hv
  rcases List.mem_filterMap.mp hv with ⟨q, hq, hfq⟩
  have hd := perSkillFsViolation_shape hfq
  simp [hd]

theorem filter_host_globalNet (tn : String) (cs : List String)
    (pol : GlobalPolicy) (hst : String) (hosts : List String)
    (hglob : checkNetworkAccess hst ⟨[], pol.globalDeniedHosts⟩ = none) :
    (hosts.filterMap (globalNetViolation tn cs pol)).filter
      (fun v => decide (v.details.host = some hst)) = [] := by
  rw [List.filter_eq_nil_iff]
  intro v hv
  rcases List.mem_filterMap.mp hv with ⟨q, hq, hfq⟩
  obtain ⟨hd, hm⟩ := globalNetViolation_shape hfq
  simp only [hd, decide_eq_true_eq]
  intro hqp
  rw [Option.some.inj hqp] at hm
  exact hm hglob

theorem filter_host_perSkillNet_nil (tn : String) (pol : GlobalPolicy)
    (cs : List String) (hst : String) (hosts : List String)
    (hnone : perSkillNetViolation tn pol cs hst = none) :
    (hosts.filterMap (perSkillNetViolation tn pol cs)).filter
      (fun v => decide (v.details.host = some hst)) = [] := by
  rw [List.filter_eq_nil_iff]
  intro v hv
  rcases List.mem_filterMap.mp hv with ⟨q, hq, hfq⟩
  have hd := perSkillNetViolation_shape hfq
  simp only [hd, decide_eq_true_eq]
  intro hqp
  rw [Option.some.inj hqp] at hfq
  rw [hnone] at hfq
  cases hfq


/-- C4: Multi-claimant generosity — for a tool claimed by two or more
skills and an extracted path matching no global denied pattern: if any
claiming contract's `checkFilesystemAccess` returns null the evaluator
reports no violation referencing that path, and if none does it reports
exactly one high `filesystem_read_violation`/`filesystem_write_violation`
(per the inferred operation) attributed to the joined claiming skills;
symmetrically for extracted hosts and `checkNetworkAccess`. -/
theorem matchToolCall_multi_claimant (contracts : List ActionBox)
    (toolName : String) (params : Params) (p hst : String)
    (hclaim : 2 ≤
      (attributeToolToSkills toolName (buildGlobalPolicy contracts)).length) :
    (p ∈ extractPaths toolName params →
      pathMatchesAny p (buildGlobalPolicy contracts).globalDeniedPaths =
        false →
      (∃ sk ∈ attributeToolToSkills toolName (buildGlobalPolicy contracts),
        ∃ box, mget (buildGlobalPolicy contracts).boxes sk = some box ∧
          checkFilesystemAccess p (inferFileOperation toolName)
            box.filesystem = none) →
      fsViolationsFor p
        (matchToolCall toolName params (buildGlobalPolicy contracts)) = []) ∧
    (p ∈ extractPaths toolName params →
      pathMatchesAny p (buildGlobalPolicy contracts).globalDeniedPaths =
        false →
      (¬ ∃ sk ∈ attributeToolToSkills toolName (buildGlobalPolicy contracts),
        ∃ box, mget (buildGlobalPolicy contracts).boxes sk = some box ∧
          checkFilesystemAccess p (inferFileOperation toolName)
            box.filesystem = none) →
      fsViolationsFor p
          (matchToolCall toolName params (buildGlobalPolicy contracts)) =
        [{ type :=
             if inferFileOperation toolName = FileOp.write then
               ViolationType.filesystem_write_violation
             else ViolationType.filesystem_read_violation
           severity := ViolationSeverity.high
           skillId := String.intercalate ", "
             (attributeToolToSkills toolName (buildGlobalPolicy contracts))
           toolName := toolName
           message :=
             (if inferFileOperation toolName = FileOp.write then "Write"
               else "Read") ++ " access to \"" ++ p ++
               "\" is not permitted by any claiming contract"
           rule := "filesystem." ++
             (if inferFileOperation toolName = FileOp.write then "writable"
               else "readable")
           details := ⟨some p, none,
             some (attributeToolToSkills toolName
               (buildGlobalPolicy contracts))⟩ }]) ∧
    (hst ∈ extractHosts params →
      checkNetworkAccess hst
        ⟨[], (buildGlobalPolicy contracts).globalDeniedHosts⟩ = none →
      (∃ sk ∈ attributeToolToSkills toolName (buildGlobalPolicy contracts),
        ∃ box, mget (buildGlobalPolicy contracts).boxes sk = some box ∧
          checkNetworkAccess hst box.network = none) →
      netViolationsFor hst
        (matchToolCall toolName params (buildGlobalPolicy contracts)) = []) ∧
    (hst ∈ extractHosts params →
      checkNetworkAccess hst
        ⟨[], (buildGlobalPolicy contracts).globalDeniedHosts⟩ = none →
      (¬ ∃ sk ∈ attributeToolToSkills toolName (buildGlobalPolicy contracts),
        ∃ box, mget (buildGlobalPolicy contracts).boxes sk = some box ∧
          checkNetworkAccess hst box.network = none) →
      netViolationsFor hst
          (matchToolCall toolName params (buildGlobalPolicy contracts)) =
        [{ type := ViolationType.network_violation
           severity := ViolationSeverity.high
           skillId := String.intercalate ", "
             (attributeToolToSkills toolName (buildGlobalPolicy contracts))
           toolName := toolName
           message := "Host \"" ++ hst ++
             "\" is not permitted by any claiming contract"
           rule := "network.allowedHosts"
           details := ⟨none, some hst,
             some (attributeToolToSkills toolName
               (buildGlobalPolicy contracts))⟩ }]) := by
  have hne : attributeToolToSkills toolName (buildGlobalPolicy contracts) ≠
      [] := by
    intro h
    rw [h] at hclaim
    simp at hclaim
  have hexall : ∃ b ∈ contracts, ∃ t ∈ b.allowedTools, t.name = toolName := by
    rw [attributeToolToSkills_build] at hne
    by_contra hno
    push_neg at hno
    exact hne ((claimersOf_eq_nil_iff contracts toolName).mpr hno)
  have hnd : mget (buildGlobalPolicy contracts).globalDeniedTools toolName =
      none := by
    rw [mget_globalDeniedTools_build, if_pos hexall]
  have hred := matchToolCall_reduces toolName params
    (buildGlobalPolicy contracts) hnd hne
  refine ⟨?_, ?_, ?_, ?_⟩
  · intro hp hglob hallow
    have hAF : anyBoxAllowsFs (buildGlobalPolicy contracts)
        (attributeToolToSkills toolName (buildGlobalPolicy contracts)) p
        (inferFileOperation toolName) = true :=
      (anyBoxAllowsFs_iff _ _ _ _).mpr hallow
    have hnone : perSkillFsViolation toolName (buildGlobalPolicy contracts)
        (attributeToolToSkills toolName (buildGlobalPolicy contracts))
        (inferFileOperation toolName) p = none := by
      rw [perSkillFsViolation, if_neg (by simp [hglob]), if_pos hAF]
    rw [fsViolationsFor, hred]
    simp only [List.filter_append]
    rw [filter_path_globalFs _ _ _ _ _ hglob, filter_path_globalNet,
      filter_path_perSkillFs_nil _ _ _ _ _ _ hnone, filter_path_perSkillNet]
    simp
  · intro hp hglob hnallow
    have hAF : anyBoxAllowsFs (buildGlobalPolicy contracts)
        (attributeToolToSkills toolName (buildGlobalPolicy contracts)) p
        (inferFileOperation toolName) = false := by
      rw [Bool.eq_false_iff]
      intro hc
      exact hnallow ((anyBoxAllowsFs_iff _ _ _ _).mp hc)
    rw [fsViolationsFor, hred]
    simp only [List.filter_append]
    rw [filter_path_globalFs _ _ _ _ _ hglob, filter_path_globalNet,
      filter_path_perSkillNet]
    simp only [List.nil_append, List.append_nil]
    rw [filter_filterMap_eq]
    refine filterMap_eq_singleton_of _ _ p _ (extractPaths_nodup _ _) hp
      ?_ ?_
    · simp [perSkillFsViolation, hglob, hAF]
    · intro q hq hqa
      cases hfq : perSkillFsViolation toolName (buildGlobalPolicy contracts)
          (attributeToolToSkills toolName (buildGlobalPolicy contracts))
          (inferFileOperation toolName) q with
      | none => simp [hfq]
      | some v =>
        have hd := perSkillFsViolation_shape hfq
        simp [hfq, hd, hqa]
  · intro hh hglob hallow
    have hAN : anyBoxAllowsNet (buildGlobalPolicy contracts)
        (attributeToolToSkills toolName (buildGlobalPolicy contracts)) hst =
        true :=
      (anyBoxAllowsNet_iff _ _ _).mpr hallow
    have hnone : perSkillNetViolation toolName (buildGlobalPolicy contracts)
        (attributeToolToSkills toolName (buildGlobalPolicy contracts)) hst =
        none := by
      rw [perSkillNetViolation, if_neg (by simp [hglob]), if_pos hAN]
    rw [netViolationsFor, hred]
    simp only [List.filter_append]
    rw [filter_host_globalFs, filter_host_globalNet _ _ _ _ _ hglob,
      filter_host_perSkillFs, filter_host_perSkillNet_nil _ _ _ _ _ hnone]
    simp
  · intro hh hglob hnallow
    have hAN : anyBoxAllowsNet (buildGlobalPolicy contracts)
        (attributeToolToSkills toolName (buildGlobalPolicy contracts)) hst =
        false := by
      rw [Bool.eq_false_iff]
      intro hc
      exact hnallow ((anyBoxAllowsNet_iff _ _ _).mp hc)
    rw [netViolationsFor, hred]
    simp only [List.filter_append]
    rw [filter_host_globalFs, filter_host_globalNet _ _ _ _ _ hglob,
      filter_host_perSkillFs]
    simp only [List.nil_append, List.append_nil]
    rw [filter_filterMap_eq]
    refine filterMap_eq_singleton_of _ _ hst _ (extractHosts_nodup _) hh
      ?_ ?_
    · simp [perSkillNetViolation, hglob, hAN]
    · intro q hq hqa
      cases hfq : perSkillNetViolation toolName (buildGlobalPolicy contracts)
          (attributeToolToSkills toolName (buildGlobalPolicy contracts))
          q with
      | none => simp [hfq]
      | some v =>
        have hd := perSkillNetViolation_shape hfq
        simp [hfq, hd, hqa]


/-- Claimant contracts for the C4 witness: both claim
`slack_send_message`; the path is readable under the second contract's
rules but not the first's. -/
def gitBoxW : ActionBox :=
  ⟨"github-triage", "GitHub Triage", [⟨"slack_send_message", "notify"⟩],
    [], [], [], ⟨["./other/**"], [], []⟩, ⟨[], []⟩⟩

def calBoxW : ActionBox :=
  ⟨"calendar-sync", "Calendar Sync", [⟨"slack_send_message", "notify"⟩],
    [], [], [], ⟨["./config/**"], [], []⟩, ⟨[], []⟩⟩

/-- Witness for C4: a tool claimed by two skills, a path readable under
one claimant only — no filesystem violation references that path. -/
theorem matchToolCall_multi_claimant_witness :
    fsViolationsFor "./config/app.yaml"
      (matchToolCall "slack_send_message"
        [("path", JValue.str "./config/app.yaml")]
        (buildGlobalPolicy [gitBoxW, calBoxW])) = [] :=
  (matchToolCall_multi_claimant [gitBoxW, calBoxW] "slack_send_message"
    [("path", JValue.str "./config/app.yaml")] "./config/app.yaml" "x"
    (by decide)).1 (by decide) (by decide)
    ⟨"calendar-sync", by decide, calBoxW, by decide, by decide⟩

end ABox
